import Mathlib

/-!
Shallow embedding of the GPTiny training notebook (`src/train.ipynb`), a
character-level transformer language model, together with proofs of the
specification's claims about it.  Real-valued tensors are modelled over `ℚ`
with the transcendental primitives of the numeric library (`exp`, `sqrt`,
`log`) passed in as function parameters, so that every definition stays
computable; the facts those primitives satisfy (positivity of `exp`,
non-positivity of `log` on `(0, 1]`) appear as explicit hypotheses where a
proof needs them.
-/

namespace GPTiny

/-! ## Vocabulary / tokenizer (notebook cell 6) -/

/-- Sorted list of the distinct characters of the training corpus:
`used_chars = sorted(list(set(train_df)))`.  Python's `sorted` is a stable
sort by code point; it is modelled by a stable sort on the deduplicated
character list. -/
def usedChars (corpus : List Char) : List Char :=
  corpus.dedup.insertionSort (· ≤ ·)

/-- `vocab_size = len(used_chars)`. -/
def vocabSize (corpus : List Char) : Nat := (usedChars corpus).length

/-- `char_to_int = { ch:i for i,ch in enumerate(used_chars) }`: the id of a
character is its position in the sorted distinct-character list. -/
def char_to_int (corpus : List Char) (c : Char) : Nat :=
  (usedChars corpus).indexOf c

/-- `encode = lambda s: [char_to_int[c] for c in s]`.  A dictionary lookup on
a character never observed in the training corpus raises, so the call
returns no result at all; that failure is modelled as `none`. -/
def encode (corpus : List Char) (s : List Char) : Option (List Nat) :=
  if s.all (fun c => decide (c ∈ usedChars corpus)) then
    some (s.map (fun c => char_to_int corpus c))
  else none

/-- `decode = lambda l: ''.join([int_to_char[i] for i in l])`; an id outside
`[0, vocab_size)` is an absent dictionary key, modelled as `none`. -/
def decode (corpus : List Char) (l : List Nat) : Option (List Char) :=
  if l.all (fun i => decide (i < vocabSize corpus)) then
    some (l.map (fun i => (usedChars corpus).getD i ' '))
  else none

/-! ## Batch sampler (notebook cell 16, `get_batch`) -/

/-- One slice `data[i:i+block_size]` of the token sequence. -/
def contextWindow (data : List Nat) (blockSize i : Nat) : List Nat :=
  (data.drop i).take blockSize

/-- `get_batch`: given the start offsets `ix` drawn by
`torch.randint(len(data) - block_size, (batch_size,))`, the input rows are
`x = data[i:i+block_size]` and the target rows `y = data[i+1:i+block_size+1]`
for each `i` in `ix`. -/
def get_batch (data : List Nat) (blockSize : Nat) (ix : List Nat) :
    List (List Nat) × List (List Nat) :=
  (ix.map (fun i => contextWindow data blockSize i),
   ix.map (fun i => contextWindow data blockSize (i + 1)))

/-! ## Transformer block construction (notebook cell 12, `Block.__init__`) -/

/-- The head width recorded by `Block.__init__`. -/
structure BlockShape where
  headSize : Nat
deriving DecidableEq

/-- `Block.__init__`: `head_size = n_embd // n_head` (Python floor division),
after which the sub-modules are built.  No divisibility validation is
performed and no exception is raised on any input, so construction always
succeeds; `Except` models the possibility of a Python exception, and the
source has no failure path. -/
def blockInit (n_embd n_head block_size : Nat) : Except String BlockShape :=
  let _ := block_size
  .ok ⟨n_embd / n_head⟩

/-! ## Vocabulary lemmas -/

theorem mem_usedChars {corpus : List Char} {c : Char} :
    c ∈ usedChars corpus ↔ c ∈ corpus := by
  unfold usedChars
  rw [(List.perm_insertionSort _ _).mem_iff, List.mem_dedup]

theorem nodup_usedChars (corpus : List Char) : (usedChars corpus).Nodup :=
  (List.perm_insertionSort _ _).nodup_iff.mpr (List.nodup_dedup corpus)

theorem length_usedChars (corpus : List Char) :
    (usedChars corpus).length = corpus.dedup.length :=
  (List.perm_insertionSort _ _).length_eq

/-! ## Claim C4 -/

/-- C4: for every string made only of training-corpus characters,
`decode (encode s) = s`; the vocabulary size is the number of distinct
corpus characters, and `char_to_int` is a bijection between the corpus
characters and the ids `[0, vocab_size)`. -/
theorem decode_encode_roundtrip_and_bijection (corpus s : List Char)
    (hs : ∀ c ∈ s, c ∈ corpus) :
    (∃ l, encode corpus s = some l ∧ decode corpus l = some s) ∧
    vocabSize corpus = corpus.dedup.length ∧
    (∀ c ∈ corpus, char_to_int corpus c < vocabSize corpus) ∧
    (∀ c1 ∈ corpus, ∀ c2 ∈ corpus,
      char_to_int corpus c1 = char_to_int corpus c2 → c1 = c2) ∧
    (∀ i < vocabSize corpus, ∃ c ∈ corpus, char_to_int corpus c = i) := by
  have hmem : ∀ c ∈ s, c ∈ usedChars corpus := by
    intro c hc; exact mem_usedChars.mpr (hs c hc)
  have hlt : ∀ c ∈ s, char_to_int corpus c < vocabSize corpus := by
    intro c hc
    exact List.indexOf_lt_length.mpr (hmem c hc)
  refine ⟨⟨s.map (fun c => char_to_int corpus c), ?_, ?_⟩, ?_, ?_, ?_, ?_⟩
  · unfold encode
    rw [if_pos]
    rw [List.all_eq_true]
    intro c hc
    exact decide_eq_true (hmem c hc)
  · unfold decode
    rw [if_pos]
    · congr 1
      rw [List.map_map]
      have : ∀ c ∈ s,
          ((usedChars corpus).getD (char_to_int corpus c) ' ') = c := by
        intro c hc
        rw [List.getD_eq_getElem _ _ (hlt c hc)]
        exact List.indexOf_get (hlt c hc)
      calc s.map ((fun i => (usedChars corpus).getD i ' ') ∘
              fun c => char_to_int corpus c)
        = s.map id := List.map_congr_left this
      _ = s := List.map_id s
    · rw [List.all_eq_true]
      intro i hi
      rcases List.mem_map.mp hi with ⟨c, hc, rfl⟩
      exact decide_eq_true (hlt c hc)
  · exact length_usedChars corpus
  · intro c hc
    exact List.indexOf_lt_length.mpr (mem_usedChars.mpr hc)
  · intro c1 h1 c2 h2 heq
    have m1 : char_to_int corpus c1 < (usedChars corpus).length :=
      List.indexOf_lt_length.mpr (mem_usedChars.mpr h1)
    have m2 : char_to_int corpus c2 < (usedChars corpus).length :=
      List.indexOf_lt_length.mpr (mem_usedChars.mpr h2)
    have := List.indexOf_get m1
    rw [← this, ← List.indexOf_get m2]
    congr 1
    exact Fin.ext heq
  · intro i hi
    refine ⟨(usedChars corpus).get ⟨i, hi⟩, ?_, ?_⟩
    · exact mem_usedChars.mp (List.get_mem _ i hi)
    · exact List.get_indexOf (nodup_usedChars corpus) ⟨i, hi⟩

theorem decode_encode_roundtrip_and_bijection_witness :
    ∃ l, encode ['b', 'a'] ['a', 'b', 'a'] = some l ∧
      decode ['b', 'a'] l = some ['a', 'b', 'a'] :=
  (decode_encode_roundtrip_and_bijection ['b', 'a'] ['a', 'b', 'a']
    (by decide)).1

/-! ## Claim C9 -/

/-- C9: `encode` fails exactly when the string contains a character never
observed in the training corpus, and on failure no partial result is
produced (the whole call returns nothing); on success every character is
mapped to its integer id. -/
theorem encode_fails_iff_unknown (corpus s : List Char) :
    (encode corpus s = none ↔ ∃ c ∈ s, c ∉ corpus) ∧
    (∀ l, encode corpus s = some l → l = s.map (char_to_int corpus)) := by
  constructor
  · unfold encode
    by_cases h : s.all (fun c => decide (c ∈ usedChars corpus))
    · rw [if_pos h]
      simp only [List.all_eq_true, decide_eq_true_eq] at h
      constructor
      · intro hc; exact absurd hc (by simp)
      · rintro ⟨c, hc, hnc⟩
        exact absurd (mem_usedChars.mp (h c hc)) hnc
    · rw [if_neg h]
      simp only [List.all_eq_true, decide_eq_true_eq, not_forall] at h
      rcases h with ⟨c, hc, hnc⟩
      exact ⟨fun _ => ⟨c, hc, fun hmem => hnc (mem_usedChars.mpr hmem)⟩,
        fun _ => rfl⟩
  · intro l hl
    unfold encode at hl
    by_cases h : s.all (fun c => decide (c ∈ usedChars corpus))
    · rw [if_pos h] at hl
      exact (Option.some_inj.mp hl).symm
    · rw [if_neg h] at hl
      exact absurd hl (by simp)

theorem encode_fails_iff_unknown_witness :
    [1, 0] = ['b', 'a'].map (char_to_int ['a', 'b']) :=
  (encode_fails_iff_unknown ['a', 'b'] ['b', 'a']).2 [1, 0] (by decide)

/-! ## Claim C3 -/

/-- Counterexample to C3: constructing a block with `embeddingSize = 65` and
`numHeads = 16` does not fail with a configuration error; `Block.__init__`
silently floor-divides, records `head_size = 4`, and succeeds. -/
theorem blockInit_65_16_succeeds : blockInit 65 16 64 = .ok ⟨4⟩ := rfl

/-- C3 (amended): `Block.__init__` performs no divisibility validation —
construction always succeeds with `head_size = n_embd // n_head`; in
particular with `embeddingSize = 65, numHeads = 16` it succeeds with
`head_size = 4` even though `4 * 16 ≠ 65`, deferring the width mismatch to
forward time. -/
theorem blockInit_floor_division_no_check :
    (∀ e h bs, blockInit e h bs = .ok ⟨e / h⟩) ∧
    blockInit 65 16 64 = .ok ⟨65 / 16⟩ ∧ (65 / 16) * 16 ≠ 65 :=
  ⟨fun _ _ _ => rfl, rfl, by decide⟩

/-! ## Claim C5 -/

theorem contextWindow_length {data : List Nat} {bs i : Nat}
    (h : i + bs ≤ data.length) : (contextWindow data bs i).length = bs := by
  unfold contextWindow
  rw [List.length_take, List.length_drop]
  omega

theorem contextWindow_getD {data : List Nat} {bs i t : Nat} (ht : t < bs)
    (h : i + bs ≤ data.length) :
    (contextWindow data bs i).getD t 0 = data.getD (i + t) 0 := by
  have ht' : t < (contextWindow data bs i).length := by
    rw [contextWindow_length h]; exact ht
  rw [List.getD_eq_getElem _ _ ht']
  unfold contextWindow at ht' ⊢
  rw [List.getElem_take, List.getElem_drop]
  exact (List.getD_eq_getElem _ _ (by omega)).symm

/-- C5: from offsets `ix` drawn by `torch.randint` over the interval
`[0, len(data) - blockSize)` — the bound the source passes to `randint` —
`get_batch` builds `batchSize` input rows `data[i:i+blockSize]` and target
rows `data[i+1:i+blockSize+1]`, so each target row is its input row shifted
by exactly one position in the source sequence. -/
theorem get_batch_rows (data : List Nat) (blockSize batchSize : Nat)
    (ix : List Nat) (hlen : blockSize < data.length)
    (hix : ∀ i ∈ ix, i < data.length - blockSize)
    (hbs : ix.length = batchSize) :
    ((get_batch data blockSize ix).1.length = batchSize ∧
     (get_batch data blockSize ix).2.length = batchSize) ∧
    (∀ b < batchSize,
      ((get_batch data blockSize ix).1.getD b []).length = blockSize ∧
      ((get_batch data blockSize ix).2.getD b []).length = blockSize ∧
      (∀ t < blockSize,
        ((get_batch data blockSize ix).1.getD b []).getD t 0 =
          data.getD (ix.getD b 0 + t) 0 ∧
        ((get_batch data blockSize ix).2.getD b []).getD t 0 =
          data.getD (ix.getD b 0 + t + 1) 0) ∧
      (∀ t, t + 1 < blockSize →
        ((get_batch data blockSize ix).2.getD b []).getD t 0 =
          ((get_batch data blockSize ix).1.getD b []).getD (t + 1) 0)) := by
  subst hbs
  refine ⟨⟨List.length_map _ _, List.length_map _ _⟩, ?_⟩
  intro b hb
  have hxb : (get_batch data blockSize ix).1.getD b [] =
      contextWindow data blockSize (ix.getD b 0) := by
    unfold get_batch
    rw [List.getD_eq_getElem _ _ (by simpa using hb), List.getElem_map,
      List.getD_eq_getElem _ _ hb]
  have hyb : (get_batch data blockSize ix).2.getD b [] =
      contextWindow data blockSize (ix.getD b 0 + 1) := by
    unfold get_batch
    rw [List.getD_eq_getElem _ _ (by simpa using hb), List.getElem_map,
      List.getD_eq_getElem _ _ hb]
  have hmem : ix.getD b 0 ∈ ix := by
    rw [List.getD_eq_getElem _ _ hb]; exact List.getElem_mem hb
  have hi : ix.getD b 0 < data.length - blockSize := hix _ hmem
  have hx : ix.getD b 0 + blockSize ≤ data.length := by omega
  have hy : (ix.getD b 0 + 1) + blockSize ≤ data.length := by omega
  refine ⟨by rw [hxb]; exact contextWindow_length hx,
          by rw [hyb]; exact contextWindow_length hy, ?_, ?_⟩
  · intro t ht
    constructor
    · rw [hxb]; exact contextWindow_getD ht hx
    · rw [hyb, contextWindow_getD ht hy]
      congr 1
      omega
  · intro t ht
    rw [hxb, hyb, contextWindow_getD (by omega : t < blockSize) hy,
      contextWindow_getD (by omega : t + 1 < blockSize) hx]
    congr 1
    omega

theorem get_batch_rows_witness :
    ((get_batch [5, 6, 7, 8] 2 [0, 1]).1.length = 2 ∧
     (get_batch [5, 6, 7, 8] 2 [0, 1]).2.length = 2) :=
  (get_batch_rows [5, 6, 7, 8] 2 2 [0, 1] (by decide) (by decide) rfl).1

/-! ## Attention head (notebook cell 9, `Head`) -/

/-- Dot product of two vectors. -/
def dot (u v : List ℚ) : ℚ := (List.zipWith (· * ·) u v).sum

/-- `nn.Linear(n_in, n_out, bias=False)` applied to one vector: the weight
matrix `W` is stored as `out × in` rows, `y = W x`. -/
def linearNB (W : List (List ℚ)) (x : List ℚ) : List ℚ :=
  W.map (fun w => dot w x)

/-- Integer square root by exhaustive search (structural, so the kernel can
evaluate it); exact on perfect squares.  Used only to instantiate the
abstract `sqrt` primitive at concrete perfect-square inputs. -/
def isqrt (n : Nat) : Nat :=
  ((List.range (n + 1)).filter (fun k => decide (k * k ≤ n))).foldr max 0

/-- Concrete square root on `ℚ`, exact on perfect-square rationals. -/
def sqrtQ (q : ℚ) : ℚ := (isqrt q.num.toNat : ℚ) / (isqrt q.den : ℚ)

/-- `Head.forward`, attention-score stage: with `B,T,C = x.shape`,
`k = self.key(x)`, `q = self.query(x)`,
`wei = q @ k.transpose(-2,-1) * C**-0.5`.  Here `x` is one batch element
(`T × C` rows); `C**-0.5` is the reciprocal square root of the embedding
width `C` read off the input's shape. -/
def headScores (sqrt : ℚ → ℚ) (Wq Wk : List (List ℚ))
    (x : List (List ℚ)) : List (List ℚ) :=
  (x.map (linearNB Wq)).map (fun qr =>
    (x.map (linearNB Wk)).map (fun kr =>
      dot qr kr * (sqrt (((x.headD []).length : Nat) : ℚ))⁻¹))

/-- The attention-score stage as the spec's words describe it: scaled by
`1 / sqrt(headSize)` where `headSize` is the head's projection width (the
number of output rows of the projection matrices).  Written only for
comparison with `headScores`, which is translated from the source. -/
def specHeadScores (sqrt : ℚ → ℚ) (Wq Wk : List (List ℚ))
    (x : List (List ℚ)) : List (List ℚ) :=
  (x.map (linearNB Wq)).map (fun qr =>
    (x.map (linearNB Wk)).map (fun kr =>
      dot qr kr * (sqrt ((Wq.length : Nat) : ℚ))⁻¹))

/-- `torch.tril(torch.ones(block_size, block_size))`: the lower-triangular
mask buffer registered by `Head.__init__`. -/
def trilM (n : Nat) : List (List ℚ) :=
  (List.range n).map (fun i =>
    (List.range n).map (fun j => if j ≤ i then 1 else 0))

/-- Entry `(t, u)` of the sliced mask `self.tril[:T, :T]`. -/
def trilSlice (blockSize T t u : Nat) : ℚ :=
  ((((trilM blockSize).take T).map (fun r => r.take T)).getD t []).getD u 0

/-- `wei.masked_fill(self.tril[:T, :T] == 0, float('-inf'))`: entries where
the sliced mask is zero become `-∞`, modelled as `none`. -/
def maskedScores (blockSize : Nat) (wei : List (List ℚ)) :
    List (List (Option ℚ)) :=
  wei.mapIdx (fun t row => row.mapIdx (fun u v =>
    if trilSlice blockSize wei.length t u = 0 then none else some v))

/-- `exp` extended to `-∞` scores: `exp(-∞) = 0`, the value IEEE softmax
assigns to fully masked entries. -/
def expMasked (exp : ℚ → ℚ) : Option ℚ → ℚ
  | none => 0
  | some v => exp v

/-- `F.softmax(wei, dim=-1)` on one (possibly masked) row: each entry is its
exponential divided by the row sum of exponentials, a `-∞` entry
contributing zero. -/
def softmaxMasked (exp : ℚ → ℚ) (row : List (Option ℚ)) : List ℚ :=
  (row.map (expMasked exp)).map
    (fun w => w / (row.map (expMasked exp)).sum)

/-- Parameters of one attention head: the `key`/`query`/`value` projection
weights and the realized dropout factor at each attention-matrix entry
(`0` for a zeroed element, `1/(1-p)` for a kept one, `1` in eval mode). -/
structure HeadP where
  Wk : List (List ℚ)
  Wq : List (List ℚ)
  Wv : List (List ℚ)
  drop : Nat → Nat → ℚ

/-- `Head.forward` up to the normalized attention weights: scores, causal
`masked_fill`, row softmax, then `self.dropout(wei)` as an elementwise
factor. -/
def headWeights (sqrt exp : ℚ → ℚ) (h : HeadP) (blockSize : Nat)
    (x : List (List ℚ)) : List (List ℚ) :=
  ((maskedScores blockSize (headScores sqrt h.Wq h.Wk x)).map
      (softmaxMasked exp)).mapIdx
    (fun t row => row.mapIdx (fun u w => h.drop t u * w))

/-- `Head.forward` output: `out = wei @ v` with `v = self.value(x)` — each
output row is the attention-weighted sum of the value projections. -/
def headFwd (sqrt exp : ℚ → ℚ) (h : HeadP) (blockSize : Nat)
    (x : List (List ℚ)) : List (List ℚ) :=
  (headWeights sqrt exp h blockSize x).map (fun wrow =>
    (List.zipWith (fun c vr => vr.map (fun a => c * a)) wrow
        (x.map (linearNB h.Wv))).foldr
      (fun a acc => List.zipWith (· + ·) a acc)
      (List.replicate h.Wv.length 0))

/-! ## Claim C1 -/

theorem isqrt_four : isqrt 4 = 2 := by decide

theorem isqrt_one : isqrt 1 = 1 := by decide

theorem sqrtQ_four : sqrtQ (4 : ℚ) = 2 := by
  rw [sqrtQ]
  norm_num [isqrt_four, isqrt_one]
  have h : isqrt (Int.toNat 4) = 2 := by decide
  rw [h]
  norm_num

theorem sqrtQ_one : sqrtQ (1 : ℚ) = 1 := by
  rw [sqrtQ]
  norm_num [isqrt_one]

/-- Counterexample to C1: with embedding width `C = 4` and head projection
width `headSize = 1`, the source scales the score by `1/sqrt(4) = 1/2`
while the spec's `1/sqrt(headSize)` is `1/sqrt(1) = 1`, so the two score
matrices differ on this input. -/
theorem headScores_ne_spec :
    headScores sqrtQ [[1, 0, 0, 0]] [[1, 0, 0, 0]] [[1, 0, 0, 0]] ≠
    specHeadScores sqrtQ [[1, 0, 0, 0]] [[1, 0, 0, 0]] [[1, 0, 0, 0]] := by
  have h1 : headScores sqrtQ [[1, 0, 0, 0]] [[1, 0, 0, 0]] [[1, 0, 0, 0]] =
      [[2⁻¹]] := by
    simp [headScores, linearNB, dot]
    norm_num [sqrtQ_four]
  have h2 : specHeadScores sqrtQ [[1, 0, 0, 0]] [[1, 0, 0, 0]]
      [[1, 0, 0, 0]] = [[1]] := by
    simp [specHeadScores, linearNB, dot]
    norm_num [sqrtQ_one]
  rw [h1, h2]
  intro hEq
  have := List.head_eq_of_cons_eq hEq
  have := List.head_eq_of_cons_eq this
  norm_num at this

/-- C1 (amended): the raw attention score of query position `t` against key
position `u` equals the dot product of the query and key projections scaled
by `1/sqrt(C)`, where `C` is the embedding width of the input `x` — not the
head's projection width `headSize`. -/
theorem headScores_entry (sqrt : ℚ → ℚ) (Wq Wk : List (List ℚ))
    (x : List (List ℚ)) (t u : Nat) (ht : t < x.length)
    (hu : u < x.length) :
    ((headScores sqrt Wq Wk x).getD t []).getD u 0 =
      dot (linearNB Wq (x.getD t [])) (linearNB Wk (x.getD u [])) *
        (sqrt (((x.headD []).length : Nat) : ℚ))⁻¹ := by
  have h1 : (headScores sqrt Wq Wk x).getD t [] =
      (x.map (linearNB Wk)).map (fun kr =>
        dot (linearNB Wq (x.getD t [])) kr *
          (sqrt (((x.headD []).length : Nat) : ℚ))⁻¹) := by
    unfold headScores
    rw [List.getD_eq_getElem _ _ (by simpa using ht), List.getElem_map,
        List.getElem_map, List.getD_eq_getElem _ _ ht]
  rw [h1, List.getD_eq_getElem _ _ (by simpa using hu), List.getElem_map,
      List.getElem_map, List.getD_eq_getElem _ _ hu]

theorem headScores_entry_witness :
    ((headScores sqrtQ [[1, 0, 0, 0]] [[1, 0, 0, 0]] [[2, 1, 0, 0]]).getD 0
        []).getD 0 0 =
      dot (linearNB [[1, 0, 0, 0]] ([[2, 1, 0, 0]].getD 0 []))
          (linearNB [[1, 0, 0, 0]] ([[2, 1, 0, 0]].getD 0 [])) *
        (sqrtQ ((([[2, 1, 0, 0]] : List (List ℚ)).headD []).length : ℚ))⁻¹ :=
  headScores_entry sqrtQ [[1, 0, 0, 0]] [[1, 0, 0, 0]] [[2, 1, 0, 0]] 0 0
    (by decide) (by decide)

/-! ## Claim C2 -/

theorem trilSlice_later_zero {bs T t u : Nat} (hT : T ≤ bs) (ht : t < T)
    (hu : u < T) (htu : t < u) : trilSlice bs T t u = 0 := by
  have hrow : ((((trilM bs).take T).map (fun r => r.take T)).getD t []) =
      ((List.range bs).map (fun j => if j ≤ t then (1 : ℚ) else 0)).take
        T := by
    unfold trilM
    rw [List.getD_eq_getElem _ _ (by
          simp only [List.length_map, List.length_take, List.length_range]
          omega),
        List.getElem_map, List.getElem_take, List.getElem_map,
        List.getElem_range]
  unfold trilSlice
  rw [hrow, List.getD_eq_getElem _ _ (by
        simp only [List.length_take, List.length_map, List.length_range]
        omega),
      List.getElem_take, List.getElem_map, List.getElem_range]
  simp [Nat.not_le.mpr htu]

theorem softmaxMasked_none {exp : ℚ → ℚ} {row : List (Option ℚ)} {u : Nat}
    (hu : u < row.length) (hnone : row.getD u none = none) :
    (softmaxMasked exp row).getD u 0 = 0 := by
  unfold softmaxMasked
  rw [List.getD_eq_getElem _ _ (by simpa using hu), List.getElem_map,
      List.getElem_map]
  rw [List.getD_eq_getElem _ _ hu] at hnone
  rw [hnone]
  simp [expMasked]

/-- C2: for every input, every head (arbitrary projection weights — hence
every head of every layer), and any realized dropout factors, the
normalized attention weight from query position `t` to any later key
position `u > t` is exactly zero: the causal mask sets the score to `-∞`
before the softmax over the time axis, the softmax maps it to `0`, and the
elementwise dropout factor keeps it `0`. -/
theorem headWeights_causal_zero (sqrt exp : ℚ → ℚ) (h : HeadP)
    (blockSize : Nat) (x : List (List ℚ)) (t u : Nat)
    (hT : x.length ≤ blockSize) (ht : t < x.length) (hu : u < x.length)
    (htu : t < u) :
    ((headWeights sqrt exp h blockSize x).getD t []).getD u 0 = 0 := by
  set S := headScores sqrt h.Wq h.Wk x with hS
  have hSlen : S.length = x.length := by
    rw [hS]; unfold headScores; simp
  have hSrow : (S.getD t []).length = x.length := by
    rw [hS]
    unfold headScores
    rw [List.getD_eq_getElem _ _ (by simpa using ht), List.getElem_map]
    simp
  have hMlen : (maskedScores blockSize S).length = x.length := by
    rw [maskedScores, List.length_mapIdx, hSlen]
  have hMrow : (maskedScores blockSize S).getD t [] =
      (S.getD t []).mapIdx (fun v w =>
        if trilSlice blockSize S.length t v = 0 then none else some w) := by
    unfold maskedScores
    rw [List.getD_eq_getElem _ _ (by rw [List.length_mapIdx, hSlen]; exact ht),
        List.getElem_mapIdx,
        List.getD_eq_getElem _ _ (by rw [hSlen]; exact ht)]
  have hMrowlen : ((maskedScores blockSize S).getD t []).length = x.length := by
    rw [hMrow, List.length_mapIdx, hSrow]
  have hMnone : ((maskedScores blockSize S).getD t []).getD u none = none := by
    rw [hMrow,
        List.getD_eq_getElem _ _ (by rw [List.length_mapIdx, hSrow]; exact hu),
        List.getElem_mapIdx,
        if_pos (by rw [hSlen]; exact trilSlice_later_zero hT ht hu htu)]
  unfold headWeights
  rw [← hS]
  have hX : (((maskedScores blockSize S).map (softmaxMasked exp)).mapIdx
      (fun t2 row => row.mapIdx (fun u2 w => h.drop t2 u2 * w))).getD t [] =
      (softmaxMasked exp ((maskedScores blockSize S).getD t [])).mapIdx
        (fun u2 w => h.drop t u2 * w) := by
    rw [List.getD_eq_getElem _ _
          (by rw [List.length_mapIdx, List.length_map, hMlen]; exact ht),
        List.getElem_mapIdx, List.getElem_map,
        List.getD_eq_getElem _ _ (by rw [hMlen]; exact ht)]
  rw [hX]
  have hsoftlen : (softmaxMasked exp
      ((maskedScores blockSize S).getD t [])).length = x.length := by
    rw [softmaxMasked, List.length_map, List.length_map, hMrowlen]
  have hz : (softmaxMasked exp
      ((maskedScores blockSize S).getD t [])).getD u 0 = 0 :=
    softmaxMasked_none (by rw [hMrowlen]; exact hu) hMnone
  rw [List.getD_eq_getElem _ _ (by rw [List.length_mapIdx, hsoftlen]; exact hu),
      List.getElem_mapIdx]
  rw [List.getD_eq_getElem _ _ (by rw [hsoftlen]; exact hu)] at hz
  rw [hz, mul_zero]

theorem headWeights_causal_zero_witness :
    ((headWeights sqrtQ (fun q => 1 + q)
        ⟨[[1]], [[1]], [[1]], fun _ _ => 1⟩ 2 [[1], [2]]).getD 0 []).getD 1
        0 = 0 :=
  headWeights_causal_zero sqrtQ (fun q => 1 + q)
    ⟨[[1]], [[1]], [[1]], fun _ _ => 1⟩ 2 [[1], [2]] 0 1 (by decide)
    (by decide) (by decide) (by decide)

/-! ## Multi-head attention, feed-forward, layer norm, block
(notebook cells 10-12) -/

/-- `nn.Linear(n_in, n_out)` with bias on one vector; the weight is stored
as `out × in` rows, with one bias entry per output row. -/
def linearB (W : List (List ℚ)) (b : List ℚ) (x : List ℚ) : List ℚ :=
  W.mapIdx (fun o w => dot w x + b.getD o 0)

/-- Parameters of `nn.LayerNorm(n_embd)`: the elementwise affine weight and
bias. -/
structure LNP where
  gamma : List ℚ
  beta : List ℚ

/-- `nn.LayerNorm` on one feature vector: normalize to mean zero and unit
(biased) variance with `eps = 1e-5`, then apply the elementwise affine
transform. -/
def layerNorm (sqrt : ℚ → ℚ) (p : LNP) (x : List ℚ) : List ℚ :=
  (x.map (fun a => (a - x.sum / (x.length : ℚ)) /
      sqrt ((x.map (fun c => (c - x.sum / (x.length : ℚ)) ^ 2)).sum /
          (x.length : ℚ) + 1 / 100000))).mapIdx
    (fun i a => a * p.gamma.getD i 1 + p.beta.getD i 0)

/-- Parameters of `MultiHeadAttention` (cell 10): the heads, the output
projection `nn.Linear(n_embd, n_embd)` and the realized dropout factors. -/
structure MHAP where
  heads : List HeadP
  projW : List (List ℚ)
  projB : List ℚ
  drop : Nat → Nat → ℚ

/-- Feature-axis concatenation of the per-head outputs,
`torch.cat([h(x) for h in self.heads], dim=-1)`, on one batch element with
`T` time positions. -/
def catHeads (T : Nat) (outs : List (List (List ℚ))) : List (List ℚ) :=
  outs.foldr (fun m acc => List.zipWith (· ++ ·) m acc)
    (List.replicate T [])

/-- `MultiHeadAttention.forward` on one batch element: run every head,
concatenate along the feature axis, apply `self.proj`, then dropout. -/
def mhaFwd (sqrt exp : ℚ → ℚ) (m : MHAP) (blockSize : Nat)
    (x : List (List ℚ)) : List (List ℚ) :=
  ((catHeads x.length
      (m.heads.map (fun hd => headFwd sqrt exp hd blockSize x))).map
    (linearB m.projW m.projB)).mapIdx
    (fun t r => r.mapIdx (fun i a => m.drop t i * a))

/-- Parameters of `FeedFoward` (cell 11): the widening linear layer, the
contracting linear layer, and the realized dropout factors. -/
structure FFP where
  W1 : List (List ℚ)
  b1 : List ℚ
  W2 : List (List ℚ)
  b2 : List ℚ
  drop : Nat → Nat → ℚ

/-- `FeedFoward.forward` on one batch element: per-position linear →
ReLU → linear, then dropout. -/
def ffFwd (f : FFP) (x : List (List ℚ)) : List (List ℚ) :=
  (x.map (fun r =>
    linearB f.W2 f.b2 ((linearB f.W1 f.b1 r).map (fun a => max a 0)))).mapIdx
    (fun t r => r.mapIdx (fun i a => f.drop t i * a))

/-- Parameters of one `Block` (cell 12).  `Block.__init__` also creates
`self.dropout`, which `Block.forward` never uses, so it has no slot here. -/
structure BlockP where
  sa : MHAP
  ffwd : FFP
  ln1 : LNP
  ln2 : LNP

/-- Elementwise sum of two stacks of rows (`x + sublayer(x)` residual). -/
def addRows (a b : List (List ℚ)) : List (List ℚ) :=
  List.zipWith (fun r s => List.zipWith (· + ·) r s) a b

/-- `Block.forward`: `x = x + self.sa(self.ln1(x))` then
`x = x + self.ffwd(self.ln2(x))` — pre-norm residual composition, on one
batch element. -/
def blkFwd (sqrt exp : ℚ → ℚ) (b : BlockP) (blockSize : Nat)
    (x : List (List ℚ)) : List (List ℚ) :=
  let x1 := addRows x
    (mhaFwd sqrt exp b.sa blockSize (x.map (layerNorm sqrt b.ln1)))
  addRows x1 (ffFwd b.ffwd (x1.map (layerNorm sqrt b.ln2)))

/-! ## Language model (notebook cell 18, `LanguageModel`) -/

/-- Parameters of `LanguageModel`: token-embedding table
(`vocab_size × n_embd` rows), position-embedding table
(`block_size × n_embd` rows), the stacked blocks, the final layer norm, the
`lm_head` projection to vocabulary logits, and the global `block_size`
hyperparameter. -/
structure LMP where
  tokT : List (List ℚ)
  posT : List (List ℚ)
  blocks : List BlockP
  lnf : LNP
  lmW : List (List ℚ)
  lmB : List ℚ
  blockSize : Nat

/-- The logits tensor of `LanguageModel.forward` on a valid `B × T` batch:
token embedding plus position embedding (`T` read off the first row, as
from `idx.shape`), the stacked blocks, the final layer norm, and
`lm_head`. -/
def lmLogits (sqrt exp : ℚ → ℚ) (P : LMP) (idx : List (List Nat)) :
    List (List (List ℚ)) :=
  idx.map (fun r =>
    ((P.blocks.foldl (fun acc b => blkFwd sqrt exp b P.blockSize acc)
        (List.zipWith (fun tok pe =>
            List.zipWith (· + ·) (P.tokT.getD tok []) pe)
          r ((List.range (idx.headD []).length).map
            (fun t => P.posT.getD t [])))).map
      (layerNorm sqrt P.lnf)).map (linearB P.lmW P.lmB))

/-- One term of `F.cross_entropy` on the flattened logits: the negative log
of the softmax probability the row assigns to the target class. -/
def ceTerm (exp log : ℚ → ℚ) (row : List ℚ) (tk : Nat) : ℚ :=
  -(log (exp (row.getD tk 0) / (row.map exp).sum))

/-- `F.cross_entropy(logits.view(B*T, C), targets.view(B*T))` with the
default mean reduction over the flattened batch and time positions. -/
def crossEntropyLoss (exp log : ℚ → ℚ) (lf : List (List ℚ))
    (tf : List Nat) : ℚ :=
  (List.zipWith (ceTerm exp log) lf tf).sum /
    (((List.zipWith (ceTerm exp log) lf tf).length : Nat) : ℚ)

/-- `LanguageModel.forward`.  An out-of-range token id or `T > block_size`
makes the embedding lookups raise (modelled as `none`).  The loss slot is
`none` exactly when `targets` is `None`; with targets, `targets.view(B*T)`
and `F.cross_entropy` require `B*T` target entries, each a valid class
id. -/
def lmForward (sqrt exp log : ℚ → ℚ) (P : LMP) (idx : List (List Nat))
    (targets : Option (List (List Nat))) :
    Option (List (List (List ℚ)) × Option ℚ) :=
  if (idx.all fun r => r.all (fun tok => decide (tok < P.tokT.length))) ∧
      (idx.headD []).length ≤ P.posT.length then
    match targets with
    | none => some (lmLogits sqrt exp P idx, none)
    | some tg =>
      if tg.flatten.length = (lmLogits sqrt exp P idx).flatten.length ∧
          tg.flatten.all (fun tk => decide (tk < P.lmW.length)) then
        some (lmLogits sqrt exp P idx,
          some (crossEntropyLoss exp log (lmLogits sqrt exp P idx).flatten
            tg.flatten))
      else none
  else none

/-- `F.softmax` on one (unmasked) logit row. -/
def softmaxQ (exp : ℚ → ℚ) (row : List ℚ) : List ℚ :=
  row.map (fun v => exp v / (row.map exp).sum)

/-- Python's `row[-block_size:]`: the last `block_size` entries (the whole
row when `block_size = 0`, since `a[-0:]` is `a[0:]`). -/
def lastTokens (blockSize : Nat) (r : List Nat) : List Nat :=
  if blockSize = 0 then r else r.drop (r.length - blockSize)

/-- `logits[:, -1, :]`: the final time step of every batch row; indexing an
empty time axis raises, modelled as `none`. -/
def lastLogits : List (List (List ℚ)) → Option (List (List ℚ))
  | [] => some []
  | m :: ms =>
    match m.getLast?, lastLogits ms with
    | some r, some rs => some (r :: rs)
    | _, _ => none

/-- `LanguageModel.generate`: at each of the `maxNewTokens` steps, crop the
running `B × T` batch to its last `block_size` tokens, run `forward` with
no targets, keep the logits of the final time step, soft-max them, and
draw one id per row with `torch.multinomial`, appending the sampled column
to the batch.  The stochastic `torch.multinomial` draw is the oracle
`samp`, which picks an index into its probability vector.  A failing
forward, or `logits[:, -1, :]` on an empty time axis, aborts the call
(`none`). -/
def generate (sqrt exp log : ℚ → ℚ) (P : LMP) (samp : List ℚ → Nat) :
    List (List Nat) → Nat → Option (List (List Nat))
  | idx, 0 => some idx
  | idx, n + 1 =>
    match lmForward sqrt exp log P (idx.map (lastTokens P.blockSize))
        none with
    | none => none
    | some (logits, _) =>
      match lastLogits logits with
      | none => none
      | some lasts =>
        generate sqrt exp log P samp
          (List.zipWith (fun r nx => r ++ [nx]) idx
            ((lasts.map (softmaxQ exp)).map samp)) n

/-! ## Loss estimation and the training loop (cells 16 and 24) -/

/-- `estimate_loss(mode, model)` (cell 16): select the splits for the mode,
and for each chosen split average `eval_iters` sampled-batch losses.  The
loss of the model on the `k`-th sampled batch of a split (`get_batch`
followed by `model(X, Y)`, a stochastic draw) is the oracle
`batchLoss split k`. -/
def estimate_loss (evalIters : Nat) (batchLoss : String → Nat → ℚ)
    (mode : String) : List (String × ℚ) :=
  (if mode = "train" then ["train", "dev"]
   else if mode = "test" then ["test"] else []).map
    (fun split =>
      (split, ((List.range evalIters).map (batchLoss split)).sum /
        ((evalIters : Nat) : ℚ)))

/-- Dictionary lookup in the result of `estimate_loss`. -/
def lossOf (out : List (String × ℚ)) (split : String) : ℚ :=
  ((out.find? (fun p => p.1 == split)).getD (split, 0)).2

/-- One row of the loss log: `(iter, train_loss, val_loss, BPC)`. -/
structure LossRecord where
  iter : Nat
  trainLoss : ℚ
  valLoss : ℚ
  bpc : ℚ
deriving DecidableEq

/-- The logging behaviour of the training loop (cell 24), with the
`estimate_loss("train")` call carrying the `model` argument its signature
requires: for `iter` in `range(max_iters)`, whenever
`iter % eval_interval == 0 or iter == max_iters - 1` it computes the
train/dev mean losses of the current model, derives
`bpc = dev_loss / log(2)`, and appends one record to the log; the
optimizer, scheduler and batch steps never touch the log.  `batchLoss iter`
is the batch-loss oracle for the model as of iteration `iter`. -/
def trainingLog (log : ℚ → ℚ) (evalIters : Nat)
    (batchLoss : Nat → String → Nat → ℚ) (maxIters evalInterval : Nat) :
    List LossRecord :=
  (List.range maxIters).foldl (fun recs iter =>
    if iter % evalInterval = 0 ∨ iter = maxIters - 1 then
      recs ++ [⟨iter,
        lossOf (estimate_loss evalIters (batchLoss iter) "train") "train",
        lossOf (estimate_loss evalIters (batchLoss iter) "train") "dev",
        lossOf (estimate_loss evalIters (batchLoss iter) "train") "dev" /
          log 2⟩]
    else recs) []

/-! ## Shape lemmas -/

theorem linearB_length (W : List (List ℚ)) (b x : List ℚ) :
    (linearB W b x).length = W.length := by
  simp [linearB]

theorem layerNorm_length (sqrt : ℚ → ℚ) (p : LNP) (x : List ℚ) :
    (layerNorm sqrt p x).length = x.length := by
  simp [layerNorm]

theorem headWeights_length (sqrt exp : ℚ → ℚ) (h : HeadP) (bs : Nat)
    (x : List (List ℚ)) :
    (headWeights sqrt exp h bs x).length = x.length := by
  simp [headWeights, maskedScores, headScores]

theorem headFwd_length (sqrt exp : ℚ → ℚ) (h : HeadP) (bs : Nat)
    (x : List (List ℚ)) : (headFwd sqrt exp h bs x).length = x.length := by
  rw [headFwd, List.length_map, headWeights_length]

theorem catHeads_length (T : Nat) (outs : List (List (List ℚ)))
    (h : ∀ m ∈ outs, m.length = T) : (catHeads T outs).length = T := by
  induction outs with
  | nil => simp [catHeads]
  | cons m ms ih =>
    have hm : m.length = T := h m (List.mem_cons_self _ _)
    have hacc : (catHeads T ms).length = T :=
      ih (fun m2 hm2 => h m2 (List.mem_cons_of_mem _ hm2))
    unfold catHeads at hacc ⊢
    rw [List.foldr_cons, List.length_zipWith, hm, hacc, Nat.min_self]

theorem mhaFwd_length (sqrt exp : ℚ → ℚ) (m : MHAP) (bs : Nat)
    (x : List (List ℚ)) : (mhaFwd sqrt exp m bs x).length = x.length := by
  rw [mhaFwd, List.length_mapIdx, List.length_map, catHeads_length]
  intro mm hmm
  rcases List.mem_map.mp hmm with ⟨hd, _, rfl⟩
  exact headFwd_length _ _ _ _ _

theorem ffFwd_length (f : FFP) (x : List (List ℚ)) :
    (ffFwd f x).length = x.length := by
  simp [ffFwd]

theorem addRows_length (a b : List (List ℚ)) :
    (addRows a b).length = min a.length b.length := by
  simp [addRows]

theorem blkFwd_length (sqrt exp : ℚ → ℚ) (b : BlockP) (bs : Nat)
    (x : List (List ℚ)) : (blkFwd sqrt exp b bs x).length = x.length := by
  simp only [blkFwd]
  rw [addRows_length, ffFwd_length, List.length_map, Nat.min_self,
      addRows_length, mhaFwd_length, List.length_map, Nat.min_self]

theorem blocksFold_length (sqrt exp : ℚ → ℚ) (bs : Nat) (bl : List BlockP)
    (x : List (List ℚ)) :
    (bl.foldl (fun acc b => blkFwd sqrt exp b bs acc) x).length =
      x.length := by
  induction bl generalizing x with
  | nil => rfl
  | cons b bl2 ih => rw [List.foldl_cons, ih, blkFwd_length]

theorem lmLogits_length (sqrt exp : ℚ → ℚ) (P : LMP)
    (idx : List (List Nat)) :
    (lmLogits sqrt exp P idx).length = idx.length := by
  simp [lmLogits]

theorem lmLogits_width (sqrt exp : ℚ → ℚ) (P : LMP) (idx : List (List Nat)) :
    ∀ m ∈ lmLogits sqrt exp P idx, ∀ r ∈ m, r.length = P.lmW.length := by
  intro m hm r hr
  rcases List.mem_map.mp hm with ⟨row, _, rfl⟩
  rcases List.mem_map.mp hr with ⟨r2, _, rfl⟩
  exact linearB_length _ _ _

theorem lmLogits_time (sqrt exp : ℚ → ℚ) (P : LMP) (idx : List (List Nat))
    (hrect : ∀ r ∈ idx, r.length = (idx.headD []).length) :
    ∀ m ∈ lmLogits sqrt exp P idx, m.length = (idx.headD []).length := by
  intro m hm
  rcases List.mem_map.mp hm with ⟨row, hrow, rfl⟩
  rw [List.length_map, List.length_map, blocksFold_length,
      List.length_zipWith, List.length_map, List.length_range,
      hrect row hrow, Nat.min_self]

theorem lmForward_none_eq (sqrt exp log : ℚ → ℚ) (P : LMP)
    (idx : List (List Nat))
    (htok : ∀ r ∈ idx, ∀ tok ∈ r, tok < P.tokT.length)
    (hT : (idx.headD []).length ≤ P.posT.length) :
    lmForward sqrt exp log P idx none =
      some (lmLogits sqrt exp P idx, none) := by
  unfold lmForward
  rw [if_pos]
  refine ⟨?_, hT⟩
  rw [List.all_eq_true]
  intro r hr
  rw [List.all_eq_true]
  intro tok htk
  exact decide_eq_true (htok r hr tok htk)

theorem lmForward_some_eq (sqrt exp log : ℚ → ℚ) (P : LMP)
    (idx tg : List (List Nat))
    (htok : ∀ r ∈ idx, ∀ tok ∈ r, tok < P.tokT.length)
    (hT : (idx.headD []).length ≤ P.posT.length)
    (hlen : tg.flatten.length = (lmLogits sqrt exp P idx).flatten.length)
    (htgv : ∀ tk ∈ tg.flatten, tk < P.lmW.length) :
    lmForward sqrt exp log P idx (some tg) =
      some (lmLogits sqrt exp P idx,
        some (crossEntropyLoss exp log (lmLogits sqrt exp P idx).flatten
          tg.flatten)) := by
  unfold lmForward
  rw [if_pos]
  · dsimp only
    rw [if_pos]
    refine ⟨hlen, ?_⟩
    rw [List.all_eq_true]
    intro tk htk
    exact decide_eq_true (htgv tk htk)
  · refine ⟨?_, hT⟩
    rw [List.all_eq_true]
    intro r hr
    rw [List.all_eq_true]
    intro tok htk
    exact decide_eq_true (htok r hr tok htk)

theorem flatten_length_of_uniform {α : Type} (l : List (List α)) (T : Nat)
    (h : ∀ m ∈ l, m.length = T) : l.flatten.length = l.length * T := by
  induction l with
  | nil => simp
  | cons m ms ih =>
    rw [List.flatten_cons, List.length_append, h m (List.mem_cons_self _ _),
        ih (fun m2 hm2 => h m2 (List.mem_cons_of_mem _ hm2)),
        List.length_cons]
    ring

theorem ceTerm_nonneg (exp log : ℚ → ℚ) (row : List ℚ) (tk : Nat)
    (htk : tk < row.length) (hexp : ∀ q : ℚ, 0 < exp q)
    (hlog : ∀ q : ℚ, 0 < q → q ≤ 1 → log q ≤ 0) :
    0 ≤ ceTerm exp log row tk := by
  have hne : row.map exp ≠ [] := by
    intro hemp
    rw [List.map_eq_nil_iff] at hemp
    rw [hemp] at htk
    exact absurd htk (by simp)
  have hsum : 0 < (row.map exp).sum := by
    apply List.sum_pos
    · intro v hv
      rcases List.mem_map.mp hv with ⟨a, _, rfl⟩
      exact hexp a
    · exact hne
  unfold ceTerm
  rw [neg_nonneg]
  apply hlog
  · exact div_pos (hexp _) hsum
  · rw [div_le_one hsum]
    apply List.single_le_sum
    · intro v hv
      rcases List.mem_map.mp hv with ⟨a, _, rfl⟩
      exact le_of_lt (hexp a)
    · apply List.mem_map_of_mem
      rw [List.getD_eq_getElem _ _ htk]
      exact List.getElem_mem htk

theorem crossEntropyLoss_nonneg (exp log : ℚ → ℚ) (lf : List (List ℚ))
    (tf : List Nat) (C : Nat) (hrow : ∀ row ∈ lf, row.length = C)
    (htk : ∀ tk ∈ tf, tk < C) (hexp : ∀ q : ℚ, 0 < exp q)
    (hlog : ∀ q : ℚ, 0 < q → q ≤ 1 → log q ≤ 0) :
    0 ≤ crossEntropyLoss exp log lf tf := by
  unfold crossEntropyLoss
  apply div_nonneg
  · apply List.sum_nonneg
    intro v hv
    rcases List.mem_iff_getElem.mp hv with ⟨i, hi, rfl⟩
    rw [List.getElem_zipWith]
    apply ceTerm_nonneg
    · have hil : i < lf.length := by
        rw [List.length_zipWith] at hi
        omega
      have hit : i < tf.length := by
        rw [List.length_zipWith] at hi
        omega
      rw [hrow _ (List.getElem_mem hil)]
      exact htk _ (List.getElem_mem hit)
    · exact hexp
    · exact hlog
  · exact Nat.cast_nonneg _

/-! ## Claim C6 -/

/-- C6: on a rectangular `B × T` batch of token ids with `T ≤ blockSize`
(the size of the position table) and every id in `[0, vocabSize)` (the row
count of the token table), `forward` returns logits of shape
`(B, T, vocabSize)`; without targets the loss slot is `None`; with a
`B × T` batch of valid target ids it is the single scalar mean
cross-entropy over the flattened batch and time positions, and that scalar
is non-negative whenever the numeric library's `exp` is positive and its
`log` is non-positive on `(0, 1]`. -/
theorem lmForward_shapes_loss (sqrt exp log : ℚ → ℚ) (P : LMP)
    (idx tg : List (List Nat))
    (hrect : ∀ r ∈ idx, r.length = (idx.headD []).length)
    (htok : ∀ r ∈ idx, ∀ tok ∈ r, tok < P.tokT.length)
    (hT : (idx.headD []).length ≤ P.blockSize)
    (hpos : P.posT.length = P.blockSize)
    (hV : P.lmW.length = P.tokT.length)
    (htg : tg.flatten.length = idx.length * (idx.headD []).length)
    (htgv : ∀ tk ∈ tg.flatten, tk < P.tokT.length)
    (hexp : ∀ q : ℚ, 0 < exp q)
    (hlog : ∀ q : ℚ, 0 < q → q ≤ 1 → log q ≤ 0) :
    (lmForward sqrt exp log P idx none =
      some (lmLogits sqrt exp P idx, none)) ∧
    (lmLogits sqrt exp P idx).length = idx.length ∧
    (∀ m ∈ lmLogits sqrt exp P idx, m.length = (idx.headD []).length) ∧
    (∀ m ∈ lmLogits sqrt exp P idx, ∀ r ∈ m, r.length = P.tokT.length) ∧
    (lmForward sqrt exp log P idx (some tg) =
      some (lmLogits sqrt exp P idx,
        some (crossEntropyLoss exp log (lmLogits sqrt exp P idx).flatten
          tg.flatten))) ∧
    0 ≤ crossEntropyLoss exp log (lmLogits sqrt exp P idx).flatten
        tg.flatten := by
  have hT' : (idx.headD []).length ≤ P.posT.length := by rw [hpos]; exact hT
  have hlenf : (lmLogits sqrt exp P idx).flatten.length =
      idx.length * (idx.headD []).length := by
    rw [flatten_length_of_uniform _ _ (lmLogits_time sqrt exp P idx hrect),
        lmLogits_length]
  have htgv' : ∀ tk ∈ tg.flatten, tk < P.lmW.length := by
    intro tk htk
    rw [hV]
    exact htgv tk htk
  refine ⟨lmForward_none_eq sqrt exp log P idx htok hT',
    lmLogits_length sqrt exp P idx, lmLogits_time sqrt exp P idx hrect,
    ?_, lmForward_some_eq sqrt exp log P idx tg htok hT'
      (by rw [hlenf]; exact htg) htgv', ?_⟩
  · intro m hm r hr
    rw [← hV]
    exact lmLogits_width sqrt exp P idx m hm r hr
  · apply crossEntropyLoss_nonneg exp log _ _ P.lmW.length
    · intro row hrow
      rcases List.mem_flatten.mp hrow with ⟨m, hm, hrm⟩
      exact lmLogits_width sqrt exp P idx m hm row hrm
    · exact htgv'
    · exact hexp
    · exact hlog

theorem lmForward_shapes_loss_witness :
    lmForward sqrtQ (fun _ => 1) (fun _ => 0)
        ⟨[[1]], [[0]], [], ⟨[1], [0]⟩, [[1]], [0], 1⟩ [[0]] none =
      some (lmLogits sqrtQ (fun _ => 1)
        ⟨[[1]], [[0]], [], ⟨[1], [0]⟩, [[1]], [0], 1⟩ [[0]], none) :=
  (lmForward_shapes_loss sqrtQ (fun _ => 1) (fun _ => 0)
    ⟨[[1]], [[0]], [], ⟨[1], [0]⟩, [[1]], [0], 1⟩ [[0]] [[0]]
    (by decide) (by decide) (by decide) rfl rfl (by decide) (by decide)
    (fun _ => one_pos) (fun _ _ h2 => le_refl 0)).1

/-! ## Generation lemmas -/

theorem lastTokens_length {bs : Nat} (hbs : 0 < bs) (r : List Nat) :
    (lastTokens bs r).length = r.length - (r.length - bs) := by
  unfold lastTokens
  rw [if_neg (Nat.pos_iff_ne_zero.mp hbs), List.length_drop]

theorem lastTokens_subset {bs : Nat} {r : List Nat} :
    ∀ tok ∈ lastTokens bs r, tok ∈ r := by
  intro tok htok
  unfold lastTokens at htok
  by_cases h : bs = 0
  · rw [if_pos h] at htok
    exact htok
  · rw [if_neg h] at htok
    exact List.mem_of_mem_drop htok

theorem lastLogits_some (ls : List (List (List ℚ)))
    (h : ∀ m ∈ ls, m ≠ []) :
    ∃ v, lastLogits ls = some v ∧ v.length = ls.length ∧
      ∀ x ∈ v, ∃ m ∈ ls, x ∈ m := by
  induction ls with
  | nil => exact ⟨[], rfl, rfl, by simp⟩
  | cons m ms ih =>
    rcases ih (fun m2 hm2 => h m2 (List.mem_cons_of_mem _ hm2)) with
      ⟨v, hv, hlen, hmem⟩
    have hm : m ≠ [] := h m (List.mem_cons_self _ _)
    refine ⟨m.getLast hm :: v, ?_, by simp [hlen], ?_⟩
    · unfold lastLogits
      rw [List.getLast?_eq_getLast m hm, hv]
    · intro x hx
      rcases List.mem_cons.mp hx with h1 | h2
      · exact ⟨m, List.mem_cons_self _ _, h1 ▸ List.getLast_mem hm⟩
      · rcases hmem x h2 with ⟨m2, hm2, hxm2⟩
        exact ⟨m2, List.mem_cons_of_mem _ hm2, hxm2⟩

theorem generate_spec (sqrt exp log : ℚ → ℚ) (P : LMP) (samp : List ℚ → Nat)
    (hsamp : ∀ p : List ℚ, p ≠ [] → samp p < p.length)
    (hpos : P.posT.length = P.blockSize) (hbs : 0 < P.blockSize)
    (hV : P.lmW.length = P.tokT.length) (hV0 : 0 < P.tokT.length) :
    ∀ (n : Nat) (idx : List (List Nat)) (L : Nat), 0 < L →
      (∀ r ∈ idx, r.length = L) →
      (∀ r ∈ idx, ∀ tok ∈ r, tok < P.tokT.length) →
      ∃ out, generate sqrt exp log P samp idx n = some out ∧
        out.length = idx.length ∧
        ∀ b, b < idx.length →
          (out.getD b []).length = L + n ∧
          (out.getD b []).take L = idx.getD b [] ∧
          ∀ tok ∈ out.getD b [], tok < P.tokT.length := by
  intro n
  induction n with
  | zero =>
    intro idx L hL hrect htok
    refine ⟨idx, rfl, rfl, ?_⟩
    intro b hb
    have hmem : idx.getD b [] ∈ idx := by
      rw [List.getD_eq_getElem _ _ hb]
      exact List.getElem_mem hb
    refine ⟨by rw [hrect _ hmem]; omega, ?_, fun tok htk => htok _ hmem tok htk⟩
    rw [← hrect _ hmem]
    exact List.take_length _
  | succ n ih =>
    intro idx L hL hrect htok
    set cond := idx.map (lastTokens P.blockSize) with hcond
    have hcondtok : ∀ c ∈ cond, ∀ tok ∈ c, tok < P.tokT.length := by
      intro c hc tok htk
      rcases List.mem_map.mp hc with ⟨r, hr, rfl⟩
      exact htok r hr tok (lastTokens_subset tok htk)
    have hTC : (cond.headD []).length = L - (L - P.blockSize) ∨ cond = [] := by
      cases idx with
      | nil => right; rw [hcond]; rfl
      | cons r rs =>
        left
        rw [hcond]
        simp only [List.map_cons, List.headD_cons]
        rw [lastTokens_length hbs, hrect r (List.mem_cons_self _ _)]
    have hcondrect : ∀ c ∈ cond, c.length = (cond.headD []).length := by
      intro c hc
      rcases List.mem_map.mp hc with ⟨r, hr, rfl⟩
      rcases hTC with hTC | hTC
      · rw [hTC, lastTokens_length hbs, hrect r hr]
      · rw [hTC] at hc
        exact absurd hc (by simp)
    have hTpos : (cond.headD []).length ≤ P.posT.length := by
      rcases hTC with hTC | hTC
      · have hq : L - (L - P.blockSize) ≤ P.blockSize := by omega
        rw [hTC, hpos]
        exact hq
      · rw [hTC]
        exact Nat.zero_le _
    have heq := lmForward_none_eq sqrt exp log P cond hcondtok hTpos
    have hne : ∀ m ∈ lmLogits sqrt exp P cond, m ≠ [] := by
      intro m hm
      have hml := lmLogits_time sqrt exp P cond hcondrect m hm
      rcases hTC with hTC | hTC
      · rw [hTC] at hml
        intro hemp
        rw [hemp] at hml
        simp only [List.length_nil] at hml
        omega
      · rw [hTC] at hm
        simp [lmLogits] at hm
    rcases lastLogits_some (lmLogits sqrt exp P cond) hne with
      ⟨v, hv, hvlen, hvmem⟩
    have hvlen' : v.length = idx.length := by
      rw [hvlen, lmLogits_length, hcond, List.length_map]
    have hnext : ∀ nx ∈ (v.map (softmaxQ exp)).map samp,
        nx < P.tokT.length := by
      intro nx hnx
      rcases List.mem_map.mp hnx with ⟨p, hp, rfl⟩
      rcases List.mem_map.mp hp with ⟨row, hrow, rfl⟩
      rcases hvmem row hrow with ⟨m, hm, hrm⟩
      have hrl : row.length = P.lmW.length :=
        lmLogits_width sqrt exp P cond m hm row hrm
      have hplen : (softmaxQ exp row).length = P.lmW.length := by
        rw [softmaxQ, List.length_map, hrl]
      have hlt : samp (softmaxQ exp row) < (softmaxQ exp row).length := by
        apply hsamp
        intro hemp
        have hz : (softmaxQ exp row).length = 0 := by rw [hemp]; rfl
        rw [hplen, hV] at hz
        omega
      rw [hplen, hV] at hlt
      exact hlt
    set next := (v.map (softmaxQ exp)).map samp with hnextdef
    set idx2 := List.zipWith (fun r nx => r ++ [nx]) idx next with hidx2
    have hnextlen : next.length = idx.length := by
      rw [hnextdef, List.length_map, List.length_map, hvlen']
    have hlen2 : idx2.length = idx.length := by
      rw [hidx2, List.length_zipWith, hnextlen, Nat.min_self]
    have hgetI : ∀ b, b < idx.length →
        idx2.getD b [] = idx.getD b [] ++ [next.getD b 0] := by
      intro b hb
      rw [hidx2, List.getD_eq_getElem _ _ (by
            rw [List.length_zipWith, hnextlen, Nat.min_self]; exact hb),
          List.getElem_zipWith, List.getD_eq_getElem _ _ hb,
          List.getD_eq_getElem _ _ (by rw [hnextlen]; exact hb)]
    have hrect2 : ∀ r2 ∈ idx2, r2.length = L + 1 := by
      intro r2 hr2
      rcases List.mem_iff_getElem.mp hr2 with ⟨b, hb, rfl⟩
      have hb2 : b < idx.length := by rw [← hlen2]; exact hb
      have hg := hgetI b hb2
      rw [List.getD_eq_getElem _ _ hb] at hg
      have hmem : idx.getD b [] ∈ idx := by
        rw [List.getD_eq_getElem _ _ hb2]
        exact List.getElem_mem hb2
      rw [hg, List.length_append, List.length_singleton, hrect _ hmem]
    have htok2 : ∀ r2 ∈ idx2, ∀ tok ∈ r2, tok < P.tokT.length := by
      intro r2 hr2 tok htk
      rcases List.mem_iff_getElem.mp hr2 with ⟨b, hb, rfl⟩
      have hb2 : b < idx.length := by rw [← hlen2]; exact hb
      have hg := hgetI b hb2
      rw [List.getD_eq_getElem _ _ hb] at hg
      rw [hg] at htk
      rcases List.mem_append.mp htk with h1 | h2
      · have hmem : idx.getD b [] ∈ idx := by
          rw [List.getD_eq_getElem _ _ hb2]
          exact List.getElem_mem hb2
        exact htok _ hmem tok h1
      · rw [List.mem_singleton] at h2
        subst h2
        apply hnext
        rw [List.getD_eq_getElem _ _ (by rw [hnextlen]; exact hb2)]
        exact List.getElem_mem _
    rcases ih idx2 (L + 1) (by omega) hrect2 htok2 with
      ⟨out, hout, houtlen, hprops⟩
    refine ⟨out, ?_, by rw [houtlen, hlen2], ?_⟩
    · show generate sqrt exp log P samp idx (n + 1) = some out
      rw [generate, ← hcond, heq]
      dsimp only
      rw [hv]
      dsimp only
      rw [← hnextdef, ← hidx2]
      exact hout
    · intro b hb
      have hb2 : b < idx2.length := by rw [hlen2]; exact hb
      rcases hprops b hb2 with ⟨hlen3, htake3, htok3⟩
      have hg := hgetI b hb
      have hmem : idx.getD b [] ∈ idx := by
        rw [List.getD_eq_getElem _ _ hb]
        exact List.getElem_mem hb
      refine ⟨by omega, ?_, fun tok htk => htok3 tok htk⟩
      rw [hg] at htake3
      have h2 : (out.getD b []).take L = ((out.getD b []).take (L + 1)).take
          L := by
        rw [List.take_take]
        congr 1
        omega
      rw [h2, htake3,
          List.take_append_of_le_length (le_of_eq (hrect _ hmem).symm),
          ← hrect _ hmem, List.take_length]

/-! ## Claim C7 -/

/-- Counterexample to C7: on an empty seed row the cropped context has
`T = 0`, so the source's `logits[:, -1, :]` indexes an empty time axis and
the call fails — no sequence of length `len(seed) + maxNewTokens = 1` is
returned. -/
theorem generate_empty_seed_fails :
    generate (fun q => q) (fun q => q) (fun q => q)
      ⟨[[1]], [[0]], [], ⟨[1], [0]⟩, [[1]], [0], 1⟩ (fun _ => 0) [[]] 1 =
      none := rfl

/-- C7 (amended): for every nonempty rectangular seed batch of ids in
`[0, vocabSize)` — the empty-seed failure above forces the nonemptiness —
with a nonempty vocabulary and a positive `block_size`, `generate`
succeeds; each returned row has length `len(seed) + maxNewTokens` and
every id in it lies in `[0, vocabSize)`.  Per its definition, each step
crops the running batch to its last `blockSize` tokens, runs `forward`
without targets, and lets the `torch.multinomial` oracle pick from the
softmax of the final time step's logits. -/
theorem generate_length_range (sqrt exp log : ℚ → ℚ) (P : LMP)
    (samp : List ℚ → Nat) (n : Nat) (idx : List (List Nat)) (L : Nat)
    (hsamp : ∀ p : List ℚ, p ≠ [] → samp p < p.length)
    (hpos : P.posT.length = P.blockSize) (hbs : 0 < P.blockSize)
    (hV : P.lmW.length = P.tokT.length) (hV0 : 0 < P.tokT.length)
    (hL : 0 < L) (hrect : ∀ r ∈ idx, r.length = L)
    (htok : ∀ r ∈ idx, ∀ tok ∈ r, tok < P.tokT.length) :
    ∃ out, generate sqrt exp log P samp idx n = some out ∧
      out.length = idx.length ∧
      ∀ b, b < idx.length → (out.getD b []).length = L + n ∧
        ∀ tok ∈ out.getD b [], tok < P.tokT.length := by
  rcases generate_spec sqrt exp log P samp hsamp hpos hbs hV hV0 n idx L hL
    hrect htok with ⟨out, h1, h2, h3⟩
  exact ⟨out, h1, h2, fun b hb => ⟨(h3 b hb).1, (h3 b hb).2.2⟩⟩

theorem generate_length_range_witness :
    ∃ out, generate (fun q => q) (fun q => q) (fun q => q)
        ⟨[[1]], [[0]], [], ⟨[1], [0]⟩, [[1]], [0], 1⟩ (fun _ => 0) [[0]] 1 =
          some out ∧
      out.length = ([[0]] : List (List Nat)).length ∧
      ∀ b, b < ([[0]] : List (List Nat)).length →
        (out.getD b []).length = 1 + 1 ∧
        ∀ tok ∈ out.getD b [],
          tok < (LMP.mk [[1]] [[0]] [] ⟨[1], [0]⟩ [[1]] [0] 1).tokT.length :=
  generate_length_range (fun q => q) (fun q => q) (fun q => q)
    ⟨[[1]], [[0]], [], ⟨[1], [0]⟩, [[1]], [0], 1⟩ (fun _ => 0) 1 [[0]] 1
    (fun p hp => List.length_pos.mpr hp) rfl (by decide) rfl (by decide)
    (by decide) (by decide) (by decide)

/-! ## Claim C10 -/

theorem lmForward_none_inv (sqrt exp log : ℚ → ℚ) (P : LMP)
    (idx : List (List Nat)) (logits : List (List (List ℚ))) (l : Option ℚ)
    (h : lmForward sqrt exp log P idx none = some (logits, l)) :
    logits = lmLogits sqrt exp P idx := by
  unfold lmForward at h
  by_cases hg : (idx.all fun r =>
      r.all (fun tok => decide (tok < P.tokT.length))) ∧
      (idx.headD []).length ≤ P.posT.length
  · rw [if_pos hg] at h
    exact ((Prod.mk.injEq _ _ _ _).mp (Option.some_inj.mp h)).1.symm
  · rw [if_neg hg] at h
    exact absurd h (by simp)

theorem lastLogits_length_of_some (ls : List (List (List ℚ)))
    (v : List (List ℚ)) (h : lastLogits ls = some v) :
    v.length = ls.length := by
  induction ls generalizing v with
  | nil =>
    unfold lastLogits at h
    rw [← Option.some_inj.mp h]
    rfl
  | cons m ms ih =>
    unfold lastLogits at h
    cases hm : m.getLast? with
    | none => rw [hm] at h; exact absurd h (by simp)
    | some r =>
      rw [hm] at h
      cases hms : lastLogits ms with
      | none => rw [hms] at h; exact absurd h (by simp)
      | some rs =>
        rw [hms] at h
        rw [← Option.some_inj.mp h, List.length_cons, List.length_cons,
            ih rs hms]

/-- C10: whenever `generate` returns a batch, every returned row begins
with its seed row unchanged — the first `len(seed)` elements equal the
seed element for element, each step only ever appending the sampled token
after it. -/
theorem generate_preserves_seed (sqrt exp log : ℚ → ℚ) (P : LMP)
    (samp : List ℚ → Nat) :
    ∀ (n : Nat) (idx out : List (List Nat)),
      generate sqrt exp log P samp idx n = some out →
      out.length = idx.length ∧
      ∀ b, b < idx.length →
        (out.getD b []).take (idx.getD b []).length = idx.getD b [] := by
  intro n
  induction n with
  | zero =>
    intro idx out h
    rw [generate] at h
    rw [← Option.some_inj.mp h]
    exact ⟨rfl, fun b hb => List.take_length _⟩
  | succ n ih =>
    intro idx out h
    rw [generate] at h
    cases heq1 : lmForward sqrt exp log P (idx.map (lastTokens P.blockSize))
        none with
    | none => rw [heq1] at h; exact absurd h (by simp)
    | some pr =>
      obtain ⟨logits, l⟩ := pr
      rw [heq1] at h
      dsimp only at h
      cases heq2 : lastLogits logits with
      | none => rw [heq2] at h; exact absurd h (by simp)
      | some lasts =>
        rw [heq2] at h
        dsimp only at h
        have hnextlen : ((lasts.map (softmaxQ exp)).map samp).length =
            idx.length := by
          rw [List.length_map, List.length_map,
              lastLogits_length_of_some logits lasts heq2,
              lmForward_none_inv sqrt exp log P _ logits l heq1,
              lmLogits_length, List.length_map]
        have hlen2 : (List.zipWith (fun r nx => r ++ [nx]) idx
            ((lasts.map (softmaxQ exp)).map samp)).length = idx.length := by
          rw [List.length_zipWith, hnextlen, Nat.min_self]
        rcases ih _ _ h with ⟨hlen, hpre⟩
        constructor
        · rw [hlen, hlen2]
        · intro b hb
          have hb2 : b < (List.zipWith (fun r nx => r ++ [nx]) idx
              ((lasts.map (softmaxQ exp)).map samp)).length := by
            rw [hlen2]; exact hb
          have hg : (List.zipWith (fun r nx => r ++ [nx]) idx
              ((lasts.map (softmaxQ exp)).map samp)).getD b [] =
              idx.getD b [] ++
                [((lasts.map (softmaxQ exp)).map samp).getD b 0] := by
            rw [List.getD_eq_getElem _ _ hb2, List.getElem_zipWith,
                List.getD_eq_getElem _ _ hb,
                List.getD_eq_getElem _ _ (by rw [hnextlen]; exact hb)]
          have hp := hpre b hb2
          rw [hg, List.length_append, List.length_singleton] at hp
          have h3 : (out.getD b []).take (idx.getD b []).length =
              ((out.getD b []).take ((idx.getD b []).length + 1)).take
                (idx.getD b []).length := by
            rw [List.take_take]
            congr 1
            omega
          rw [h3, hp, List.take_append_of_le_length (le_refl _),
              List.take_length]

theorem generate_preserves_seed_witness :
    ([[0, 0]] : List (List Nat)).length = ([[0]] : List (List Nat)).length ∧
    ∀ b, b < ([[0]] : List (List Nat)).length →
      (([[0, 0]] : List (List Nat)).getD b []).take
          (([[0]] : List (List Nat)).getD b []).length =
        ([[0]] : List (List Nat)).getD b [] :=
  generate_preserves_seed (fun q => q) (fun q => q) (fun q => q)
    ⟨[[1]], [[0]], [], ⟨[1], [0]⟩, [[1]], [0], 1⟩ (fun _ => 0) 1 [[0]]
    [[0, 0]] (by decide)

/-! ## Claim C8 -/

theorem foldl_if_append {α β : Type} (p : α → Prop) [DecidablePred p]
    (f : α → β) (l : List α) (init : List β) :
    l.foldl (fun acc a => if p a then acc ++ [f a] else acc) init =
      init ++ (l.filter (fun a => decide (p a))).map f := by
  induction l generalizing init with
  | nil => simp
  | cons a as ih =>
    by_cases h : p a <;>
      simp [List.foldl_cons, h, ih, List.filter_cons, List.append_assoc]

theorem estimate_loss_train_eq (evalIters : Nat) (bl : String → Nat → ℚ) :
    estimate_loss evalIters bl "train" =
      [("train", ((List.range evalIters).map (bl "train")).sum /
          ((evalIters : Nat) : ℚ)),
       ("dev", ((List.range evalIters).map (bl "dev")).sum /
          ((evalIters : Nat) : ℚ))] := by
  rfl

theorem lossOf_train (a b : ℚ) :
    lossOf [("train", a), ("dev", b)] "train" = a := rfl

theorem lossOf_dev (a b : ℚ) :
    lossOf [("train", a), ("dev", b)] "dev" = b := rfl

/-- C8: the training loop's logging — with the `estimate_loss` call
repaired to pass the `model` argument its signature requires — appends
exactly one Loss Record per iteration of `range(maxIters)` satisfying
`iter % evalInterval == 0 or iter == maxIters - 1`, in iteration order;
each record carries the means over `evalIters` sampled batch losses of the
train and dev splits and `BPC = devLoss / log 2`. -/
theorem trainingLog_schedule (log : ℚ → ℚ) (evalIters : Nat)
    (batchLoss : Nat → String → Nat → ℚ) (maxIters evalInterval : Nat) :
    trainingLog log evalIters batchLoss maxIters evalInterval =
      ((List.range maxIters).filter (fun iter =>
          decide (iter % evalInterval = 0 ∨ iter = maxIters - 1))).map
        (fun iter =>
          ⟨iter,
           ((List.range evalIters).map (batchLoss iter "train")).sum /
             ((evalIters : Nat) : ℚ),
           ((List.range evalIters).map (batchLoss iter "dev")).sum /
             ((evalIters : Nat) : ℚ),
           (((List.range evalIters).map (batchLoss iter "dev")).sum /
             ((evalIters : Nat) : ℚ)) / log 2⟩) := by
  unfold trainingLog
  rw [foldl_if_append, List.nil_append]
  apply List.map_congr_left
  intro iter _
  rw [estimate_loss_train_eq, lossOf_train, lossOf_dev]
